import Mathlib

/-!
Shallow embedding of the RBAC-aware authorization cache of
multicloud-operators-foundation: the permission index and rebuild path of
`OptimizedClusterSetCache` / `ControllerRuntimeClusterSetCache`
(pkg/cache/controller_runtime_cache.go and the optimized cache file),
the permission-aware watch logic of `ModernCacheWatcher`, and the
cluster-set membership mapper.

Go string sets (`sets.String`) are embedded as lists of strings with
set-style insert/union; Go maps are embedded as association lists; the
mutable cache state is passed explicitly.  Concurrency (locks, channels,
contexts) is outside the embedding: the functions below are the bodies of
the Go methods with the lock/channel plumbing stripped, which is what the
claims about the data transformations refer to.
-/

namespace Foundation

/-- Embedding of Go `sets.String`: a list of strings, inserted without
duplicates. -/
abbrev SSet := List String

namespace SSet

/-- `sets.String.Insert`: add a string if not already present. -/
def insert (s : SSet) (x : String) : SSet :=
  if x ∈ s then s else s ++ [x]

/-- `sets.String.Union`: a new set holding the members of both. -/
def union (s t : SSet) : SSet :=
  t.foldl insert s

end SSet

/-- Association-list lookup, the embedding of a Go map read `m[k]`. -/
def lookupMap {α : Type} : List (String × α) → String → Option α
  | [], _ => none
  | p :: rest, k => if p.1 = k then some p.2 else lookupMap rest k

/-- The key set of an embedded Go map. -/
def keysOf {α : Type} (m : List (String × α)) : List String :=
  m.map Prod.fst

/-- A `ManagedClusterSet` as the cache sees it: name, labels and
resource version from its object metadata. -/
structure Resource where
  name : String
  labels : List (String × String)
  resourceVersion : String
deriving DecidableEq, Repr

/-- The lister / controller-runtime client view of the resource store:
the current items, keyed by name. -/
structure ResourceStore where
  items : List Resource
deriving DecidableEq, Repr

/-- `clusterSetLister.Get` / `client.Get`: find by name, not-found
becomes `none`. -/
def ResourceStore.get (store : ResourceStore) (name : String) : Option Resource :=
  store.items.find? (fun r => r.name = name)

/-- `user.Info`: the authenticated user name and its groups. -/
structure UserInfo where
  name : String
  groups : List String
deriving DecidableEq, Repr

/-- The permission index: `PermissionCache.userPermissions` /
`groupPermissions` of the optimized cache (identically
`RBACPermissionIndex.userToResources` / `groupToResources` of the
controller-runtime cache), user or group name to accessible resource
names. -/
structure PermissionCache where
  userPermissions : List (String × SSet)
  groupPermissions : List (String × SSet)
deriving DecidableEq, Repr

/-- `getAccessibleResourceNames`: start from an empty set, union in the
user's entry if present, then union in each of the user's groups'
entries if present. -/
def getAccessibleResourceNames (pc : PermissionCache) (userInfo : UserInfo) : SSet :=
  let accessibleNames : SSet := []
  let accessibleNames :=
    match lookupMap pc.userPermissions userInfo.name with
    | some userPerms => accessibleNames.union userPerms
    | none => accessibleNames
  userInfo.groups.foldl
    (fun acc group =>
      match lookupMap pc.groupPermissions group with
      | some groupPerms => acc.union groupPerms
      | none => acc)
    accessibleNames

/-- `List`: for each accessible name, fetch from the resource store
(skipping names that are not found), keep those whose labels match the
selector.  The Go selector `labels.Selector` is embedded as a boolean
predicate on the label map. -/
def ListSets (pc : PermissionCache) (store : ResourceStore) (userInfo : UserInfo)
    (selector : List (String × String) → Bool) : List Resource :=
  (getAccessibleResourceNames pc userInfo).filterMap
    (fun name =>
      match store.get name with
      | none => none
      | some clusterSet =>
          if selector clusterSet.labels then some clusterSet else none)

/-- An RBAC rule of a `ClusterRole` (only the fields the extractor
consumes). -/
structure PolicyRule where
  apiGroups : List String
  resources : List String
  verbs : List String
  resourceNames : List String
deriving DecidableEq, Repr

/-- An RBAC `ClusterRole`. -/
structure ClusterRole where
  name : String
  rules : List PolicyRule
deriving DecidableEq, Repr

/-- An RBAC binding subject. -/
structure Subject where
  kind : String
  name : String
deriving DecidableEq, Repr

/-- An RBAC `ClusterRoleBinding`: one role reference plus subjects. -/
structure Binding where
  roleRefName : String
  subjects : List Subject
deriving DecidableEq, Repr

/-- The injected extractor
`getResourceNamesFromClusterRole func(*rbacv1.ClusterRole, string, string) (sets.String, bool)`:
it is a constructor parameter of both caches, so the embedding keeps it
as a function parameter. -/
abbrev Extractor := ClusterRole → String → String → SSet × Bool

/-- The upstream stores the rebuild reads: the cluster-role-binding
lister (whose `List` may fail), the cluster-role lister, and the
cluster-set lister (whose `List` may also fail). -/
structure Upstream where
  listBindings : Except String (List Binding)
  getClusterRole : String → Option ClusterRole
  listClusterSets : Except String (List Resource)

/-- A Go map-entry union `m[name] = m[name].Union(resourceNames)`
preceded by `if m[name] == nil { m[name] = sets.NewString() }`. -/
def unionInto (m : List (String × SSet)) (key : String) (names : SSet) :
    List (String × SSet) :=
  match lookupMap m key with
  | some old => m.map (fun p => if p.1 = key then (key, old.union names) else p)
  | none => m ++ [(key, SSet.union [] names)]

/-- `processClusterRoleBinding`: resolve the bound role (skip the binding
if absent), run the extractor against the target tuple
`(cluster.open-cluster-management.io, managedclustersets)`, expand a
global grant to the current cluster-set names (skipping the binding if
that listing fails), skip empty grants, then union the names into the
entry of each `User` / `Group` subject. -/
def processClusterRoleBinding (extract : Extractor) (upstream : Upstream)
    (pc : PermissionCache) (binding : Binding) : PermissionCache :=
  match upstream.getClusterRole binding.roleRefName with
  | none => pc
  | some clusterRole =>
    let extracted := extract clusterRole "cluster.open-cluster-management.io" "managedclustersets"
    let expanded : Option SSet :=
      if extracted.2 then
        match upstream.listClusterSets with
        | Except.error _ => none
        | Except.ok allClusterSets =>
            some (allClusterSets.foldl (fun acc cs => acc.insert cs.name) [])
      else some extracted.1
    match expanded with
    | none => pc
    | some resourceNames =>
      if resourceNames.isEmpty then pc
      else
        binding.subjects.foldl
          (fun acc subject =>
            match subject.kind with
            | "User" =>
                { acc with userPermissions := unionInto acc.userPermissions subject.name resourceNames }
            | "Group" =>
                { acc with groupPermissions := unionInto acc.groupPermissions subject.name resourceNames }
            | _ => acc)
          pc

/-- `rebuildPermissionCache` / `rebuildPermissionIndex`: clear both maps,
list the bindings (returning immediately — with the maps already
cleared — if that fails), then process each binding.  The previous
index `_pc` is the state being overwritten; the Go methods mutate it in
place, the embedding returns the state it leaves behind — which never
depends on the previous state, because both maps are cleared first. -/
def rebuildPermissionCache (extract : Extractor) (upstream : Upstream)
    (_pc : PermissionCache) : PermissionCache :=
  let cleared : PermissionCache := { userPermissions := [], groupPermissions := [] }
  match upstream.listBindings with
  | Except.error _ => cleared
  | Except.ok roleBindings =>
      roleBindings.foldl (processClusterRoleBinding extract upstream) cleared

/-- A permission-change notification
`GroupMembershipChanged(names, users, groups)`. -/
structure Notification where
  names : SSet
  users : SSet
  groups : SSet
deriving DecidableEq, Repr

/-- The per-watcher notification body built inside `notifyWatchers`:
names is the union of every subject's resource set, users and groups
are the key sets of the two permission maps. -/
def buildNotification (pc : PermissionCache) : Notification :=
  let userPass : SSet × SSet :=
    pc.userPermissions.foldl
      (fun acc p => (acc.1.union p.2, acc.2.insert p.1)) (([] : SSet), ([] : SSet))
  let groupPass : SSet × SSet :=
    pc.groupPermissions.foldl
      (fun acc p => (acc.1.union p.2, acc.2.insert p.1)) (userPass.1, ([] : SSet))
  { names := groupPass.1, users := userPass.2, groups := groupPass.2 }

/-- `notifyWatchers`: each registered watcher receives one
`GroupMembershipChanged` call whose sets are built from the current
permission maps.  Watchers are identified abstractly. -/
def notifyWatchers {W : Type} (pc : PermissionCache) (watchers : List W) :
    List (W × Notification) :=
  watchers.map (fun watcher => (watcher, buildNotification pc))

/-- `ConvertResource`: fetch by name; on any error fall back to a
placeholder `ManagedClusterSet` whose metadata carries only the name
(labels and resource version are Go zero values). -/
def convertResource (store : ResourceStore) (name : String) : Resource :=
  match store.get name with
  | some clusterSet => clusterSet
  | none => { name := name, labels := [], resourceVersion := "" }

/-- `watch.EventType` as the watcher uses it. -/
inductive EventType where
  | added
  | modified
  | deleted
  | error
deriving DecidableEq, Repr

/-- A `watch.Event` enqueued on the watcher's internal channel. -/
structure Event where
  type : EventType
  object : Resource
deriving DecidableEq, Repr

/-- The watcher's `knownResources` map, name to last-seen resource
version (the Go `sync.Map`, as an association list). -/
abbrev KnownMap := List (String × String)

/-- `knownResources.Store(name, rv)`: overwrite an existing entry or
append a new one. -/
def setKnown (known : KnownMap) (name rv : String) : KnownMap :=
  if (lookupMap known name).isSome then
    known.map (fun p => if p.1 = name then (name, rv) else p)
  else known ++ [(name, rv)]

/-- `ModernCacheWatcher.handleResourceDeletions`: every known entry whose
name is no longer accessible is dropped from `knownResources` and a
`DELETED` event carrying `ConvertResource(name)` is enqueued; the
accessible entries survive unchanged.  (The timeout / context branches
of the Go `select` concern blocked channel sends and are outside the
sequential embedding.) -/
def handleResourceDeletions (store : ResourceStore) (accessibleNames : SSet)
    (known : KnownMap) : KnownMap × List Event :=
  (known.filter (fun p => p.1 ∈ accessibleNames),
   (known.filter (fun p => p.1 ∉ accessibleNames)).map
     (fun p => { type := EventType.deleted, object := convertResource store p.1 }))

/-- `ModernCacheWatcher.handleResourceUpdates`: walk the accessible
names; a name the store cannot resolve is skipped; an unknown name is
recorded and yields `ADDED`; a known name with a changed resource
version is re-recorded and yields `MODIFIED`; a known name with an
unchanged resource version yields nothing. -/
def handleResourceUpdates (store : ResourceStore) :
    List String → KnownMap → KnownMap × List Event
  | [], known => (known, [])
  | name :: rest, known =>
    match store.get name with
    | none => handleResourceUpdates store rest known
    | some object =>
      match lookupMap known name with
      | some lastResourceVersion =>
        if lastResourceVersion = object.resourceVersion then
          handleResourceUpdates store rest known
        else
          ((handleResourceUpdates store rest (setKnown known name object.resourceVersion)).1,
           { type := EventType.modified, object := object } ::
             (handleResourceUpdates store rest (setKnown known name object.resourceVersion)).2)
      | none =>
        ((handleResourceUpdates store rest (setKnown known name object.resourceVersion)).1,
         { type := EventType.added, object := object } ::
           (handleResourceUpdates store rest (setKnown known name object.resourceVersion)).2)

/-- The participating branch of `GroupMembershipChanged`: the deletions
pass followed by the updates pass over the new accessible-name set. -/
def processNotification (store : ResourceStore) (names : SSet) (known : KnownMap) :
    KnownMap × List Event :=
  let afterDeletions := handleResourceDeletions store names known
  let afterUpdates := handleResourceUpdates store names afterDeletions.1
  (afterUpdates.1, afterDeletions.2 ++ afterUpdates.2)

/-- `ModernCacheWatcher.GroupMembershipChanged`: the access check
(`users.Has(user) || groups.HasAny(userGroups...)`) gates the two
passes; a non-participating watch does nothing. -/
def GroupMembershipChanged (store : ResourceStore) (userInfo : UserInfo)
    (notification : Notification) (known : KnownMap) : KnownMap × List Event :=
  let hasAccess :=
    userInfo.name ∈ notification.users ∨
      ∃ g ∈ userInfo.groups, g ∈ notification.groups
  if hasAccess then processNotification store notification.names known
  else (known, [])

/-- Occurrences in an emitted event list of a given type for a given
resource name. -/
def countEvents (events : List Event) (t : EventType) (name : String) : Nat :=
  events.countP (fun e => e.type = t ∧ e.object.name = name)

/-- The `ModernCacheWatcher` lifecycle fields `Stop` touches: `started`
and whether the context has been cancelled. -/
structure WatcherState where
  started : Bool
  cancelled : Bool
deriving DecidableEq, Repr

/-- `ModernCacheWatcher.Stop`: under the mutex, a watcher that is not
started returns immediately; otherwise the context is cancelled and
`started` is reset.  `Stop` itself emits no events (the result stream
is closed once, by the `run` goroutine's deferred close when the
cancelled context makes it return). -/
def WatcherStop (s : WatcherState) : WatcherState × List Event :=
  if s.started then ({ started := false, cancelled := true }, []) else (s, [])

/-- `helpers.ClusterSetResourceMapper` (src/unnamed/part_002): the
resource-type tag plus the mapping from ClusterSet name to the set of
resource names it contains (`setToResources`). -/
structure ClusterSetResourceMapper where
  resourceType : String
  setToResources : List (String × SSet)
deriving DecidableEq, Repr

/-- The removal loop of `MoveResourceToClusterSet`: walk the entries;
the target set is skipped (`continue`); where the resource is present
it is deleted, and an entry whose set becomes empty is removed from the
map; other entries are untouched. -/
def removeFromOtherSets (setToResources : List (String × SSet))
    (resourceName newClusterSetName : String) : List (String × SSet) :=
  setToResources.filterMap (fun p =>
    if p.1 = newClusterSetName then some p
    else if resourceName ∈ p.2 then
      if (p.2.filter (fun x => x ≠ resourceName)).isEmpty then none
      else some (p.1, p.2.filter (fun x => x ≠ resourceName))
    else some p)

/-- `MoveResourceToClusterSet`: return unchanged when either name is
empty; otherwise remove the resource from every other cluster set
(pruning emptied entries) and insert it into the target set, creating
that entry if absent. -/
def ClusterSetResourceMapper.MoveResourceToClusterSet (m : ClusterSetResourceMapper)
    (resourceName newClusterSetName : String) : ClusterSetResourceMapper :=
  if resourceName = "" ∨ newClusterSetName = "" then m
  else if (lookupMap (removeFromOtherSets m.setToResources resourceName newClusterSetName)
      newClusterSetName).isSome then
    { m with setToResources :=
        ((removeFromOtherSets m.setToResources resourceName newClusterSetName).map
          (fun p =>
            if p.1 = newClusterSetName then (p.1, p.2.insert resourceName) else p)) }
  else
    { m with setToResources :=
        (removeFromOtherSets m.setToResources resourceName newClusterSetName ++
          [(newClusterSetName, SSet.insert [] resourceName)]) }

/-- `GetResourcesInClusterSet`: the set stored for the name (a clone in
the Go code); a missing key yields the empty set. -/
def ClusterSetResourceMapper.GetResourcesInClusterSet (m : ClusterSetResourceMapper)
    (clusterSetName : String) : SSet :=
  match lookupMap m.setToResources clusterSetName with
  | some resources => resources
  | none => []

/-! ### General lemmas about the embedded set and map operations -/

theorem SSet.mem_insert (s : SSet) (x y : String) :
    y ∈ s.insert x ↔ y ∈ s ∨ y = x := by
  unfold SSet.insert
  by_cases h : x ∈ s
  · rw [if_pos h]
    constructor
    · exact Or.inl
    · rintro (hy | rfl)
      · exact hy
      · exact h
  · rw [if_neg h]
    simp

theorem SSet.mem_union (s t : SSet) (y : String) :
    y ∈ s.union t ↔ y ∈ s ∨ y ∈ t := by
  unfold SSet.union
  induction t generalizing s with
  | nil => simp
  | cons a t ih =>
    rw [List.foldl_cons, ih, SSet.mem_insert]
    simp [or_assoc, or_comm, or_left_comm]

theorem keysOf_cons {α : Type} (p : String × α) (rest : List (String × α)) :
    keysOf (p :: rest) = p.1 :: keysOf rest := rfl

theorem lookupMap_eq_none {α : Type} (m : List (String × α)) (k : String) :
    lookupMap m k = none ↔ k ∉ keysOf m := by
  induction m with
  | nil => simp [lookupMap, keysOf]
  | cons p rest ih =>
    unfold lookupMap
    by_cases h : p.1 = k
    · rw [if_pos h, keysOf_cons, List.mem_cons]
      simp [h]
    · rw [if_neg h, ih, keysOf_cons, List.mem_cons]
      push_neg
      constructor
      · intro hk
        exact ⟨fun he => h he.symm, hk⟩
      · exact And.right

theorem lookupMap_isSome {α : Type} (m : List (String × α)) (k : String) :
    (lookupMap m k).isSome ↔ k ∈ keysOf m := by
  rcases hl : lookupMap m k with _ | v
  · rw [lookupMap_eq_none] at hl
    simp [hl]
  · have hne : lookupMap m k ≠ none := by
      rw [hl]
      exact fun h => Option.noConfusion h
    have hk : k ∈ keysOf m := by
      by_contra hk
      exact hne ((lookupMap_eq_none m k).mpr hk)
    simp [hk]

theorem lookupMap_append {α : Type} (a b : List (String × α)) (k : String) :
    lookupMap (a ++ b) k =
      match lookupMap a k with
      | some v => some v
      | none => lookupMap b k := by
  induction a with
  | nil => simp [lookupMap]
  | cons p rest ih =>
    by_cases h : p.1 = k <;> simp [lookupMap, h, ih]

theorem lookupMap_mapUpdate_self {α : Type} (m : List (String × α)) (k : String) (v : α)
    (h : k ∈ keysOf m) :
    lookupMap (m.map (fun p => if p.1 = k then (k, v) else p)) k = some v := by
  induction m with
  | nil => simp [keysOf] at h
  | cons p rest ih =>
    by_cases hp : p.1 = k
    · simp [lookupMap, hp]
    · rw [keysOf_cons, List.mem_cons] at h
      rcases h with h | h
      · exact absurd h.symm hp
      · simpa [lookupMap, hp] using ih h

theorem lookupMap_mapUpdate_other {α : Type} (m : List (String × α)) (k k' : String) (v : α)
    (h : k' ≠ k) :
    lookupMap (m.map (fun p => if p.1 = k then (k, v) else p)) k' = lookupMap m k' := by
  induction m with
  | nil => simp [lookupMap]
  | cons p rest ih =>
    by_cases hp : p.1 = k
    · have : k ≠ k' := fun he => h he.symm
      simp [lookupMap, hp, this, ih]
    · by_cases hp' : p.1 = k' <;> simp [lookupMap, hp, hp', ih, h]

theorem lookupMap_mapValues {α β : Type} (m : List (String × α)) (f : α → β) (k : String) :
    lookupMap (m.map (fun p => (p.1, f p.2))) k = (lookupMap m k).map f := by
  induction m with
  | nil => simp [lookupMap]
  | cons p rest ih =>
    by_cases hp : p.1 = k <;> simp [lookupMap, hp, ih]

theorem ResourceStore.get_name (store : ResourceStore) (name : String)
    (r : Resource) (h : store.get name = some r) : r.name = name := by
  unfold ResourceStore.get at h
  have := List.find?_some h
  simpa using this

theorem convertResource_name (store : ResourceStore) (name : String) :
    (convertResource store name).name = name := by
  unfold convertResource
  rcases h : store.get name with _ | r
  · rfl
  · exact store.get_name name r h

theorem lookupMap_setKnown_self (known : KnownMap) (name rv : String) :
    lookupMap (setKnown known name rv) name = some rv := by
  unfold setKnown
  by_cases h : (lookupMap known name).isSome
  · rw [if_pos h]
    exact lookupMap_mapUpdate_self known name rv ((lookupMap_isSome known name).mp h)
  · rw [if_neg h, lookupMap_append]
    have hnone : lookupMap known name = none := by
      rcases hl : lookupMap known name with _ | v
      · rfl
      · exact absurd (by rw [hl]; rfl) h
    rw [hnone]
    simp [lookupMap]

theorem lookupMap_setKnown_other (known : KnownMap) (name rv k : String) (h : k ≠ name) :
    lookupMap (setKnown known name rv) k = lookupMap known k := by
  unfold setKnown
  by_cases hs : (lookupMap known name).isSome
  · rw [if_pos hs]
    exact lookupMap_mapUpdate_other known name k rv h
  · rw [if_neg hs, lookupMap_append]
    rcases hl : lookupMap known k with _ | v
    · have h' : name ≠ k := Ne.symm h
      simp [lookupMap, hl, h']
    · rfl

/-! ### Lemmas about accessible-name lookup and notifications -/

theorem mem_groupFold (pc : PermissionCache) (groups : List String) (acc : SSet) (x : String) :
    x ∈ groups.foldl
        (fun acc group =>
          match lookupMap pc.groupPermissions group with
          | some groupPerms => acc.union groupPerms
          | none => acc) acc ↔
      x ∈ acc ∨ ∃ g ∈ groups, x ∈ (lookupMap pc.groupPermissions g).getD [] := by
  induction groups generalizing acc with
  | nil => simp
  | cons g rest ih =>
    rw [List.foldl_cons]
    rcases hg : lookupMap pc.groupPermissions g with _ | perms
    · rw [ih]
      simp [hg]
    · rw [ih, SSet.mem_union]
      simp [hg, or_assoc]

theorem groupFold_none (pc : PermissionCache) (groups : List String) (acc : SSet)
    (h : ∀ g ∈ groups, lookupMap pc.groupPermissions g = none) :
    groups.foldl
        (fun acc group =>
          match lookupMap pc.groupPermissions group with
          | some groupPerms => acc.union groupPerms
          | none => acc) acc = acc := by
  induction groups generalizing acc with
  | nil => rfl
  | cons g rest ih =>
    rw [List.foldl_cons, h g (List.mem_cons_self g rest)]
    exact ih acc (fun g' hg' => h g' (List.mem_cons_of_mem g hg'))

theorem mem_getAccessibleResourceNames (pc : PermissionCache) (u : UserInfo) (x : String) :
    x ∈ getAccessibleResourceNames pc u ↔
      x ∈ (lookupMap pc.userPermissions u.name).getD [] ∨
      ∃ g ∈ u.groups, x ∈ (lookupMap pc.groupPermissions g).getD [] := by
  unfold getAccessibleResourceNames
  rcases hu : lookupMap pc.userPermissions u.name with _ | perms <;>
    simp only [hu] <;> rw [mem_groupFold] <;> simp [SSet.mem_union]

theorem foldl_pair_snd (l : List (String × SSet)) (a b : SSet) :
    (l.foldl (fun acc p => (acc.1.union p.2, acc.2.insert p.1)) (a, b)).2 =
      l.foldl (fun s p => s.insert p.1) b := by
  induction l generalizing a b with
  | nil => rfl
  | cons p rest ih =>
    rw [List.foldl_cons, List.foldl_cons]
    exact ih _ _

theorem mem_foldl_insert_keys (l : List (String × SSet)) (b : SSet) (x : String) :
    x ∈ l.foldl (fun s p => s.insert p.1) b ↔ x ∈ b ∨ x ∈ keysOf l := by
  induction l generalizing b with
  | nil => simp [keysOf]
  | cons p rest ih =>
    rw [List.foldl_cons, ih, SSet.mem_insert, keysOf_cons, List.mem_cons]
    tauto

theorem buildNotification_users (pc : PermissionCache) (x : String) :
    x ∈ (buildNotification pc).users ↔ x ∈ keysOf pc.userPermissions := by
  unfold buildNotification
  simp only
  rw [foldl_pair_snd, mem_foldl_insert_keys]
  simp

theorem buildNotification_groups (pc : PermissionCache) (x : String) :
    x ∈ (buildNotification pc).groups ↔ x ∈ keysOf pc.groupPermissions := by
  unfold buildNotification
  simp only
  rw [foldl_pair_snd, mem_foldl_insert_keys]
  simp

/-! ### Concrete instances used by witnesses and counterexamples -/

/-- An extractor granting nothing, for scenarios where the extractor is
irrelevant. -/
def extractNone : Extractor := fun _ _ _ => ([], false)

/-- An upstream whose binding lister fails. -/
def upstreamDown : Upstream :=
  { listBindings := Except.error "connection refused",
    getClusterRole := fun _ => none,
    listClusterSets := Except.ok [] }

/-- An upstream with no bindings at all (a successful but empty list). -/
def upstreamEmptyOk : Upstream :=
  { listBindings := Except.ok [],
    getClusterRole := fun _ => none,
    listClusterSets := Except.ok [] }

/-- A permission index granting user alice the resource dev. -/
def pcAlice : PermissionCache :=
  { userPermissions := [("alice", ["dev"])], groupPermissions := [] }

/-- An empty resource store. -/
def storeEmpty : ResourceStore := { items := [] }

/-! ### Claims -/

/-- Claim C1 (as stated, refuted): with binding listing failing upstream
and a non-empty prior index, the rebuild does NOT leave the index equal
to its pre-rebuild maps — the maps were cleared before the failed read
and stay cleared. -/
theorem C1_counterexample :
    upstreamDown.listBindings = Except.error "connection refused" ∧
    rebuildPermissionCache extractNone upstreamDown pcAlice ≠ pcAlice :=
  ⟨rfl, by decide⟩

/-- Claim C1 (amended): if listing the bindings fails during a rebuild,
the rebuild returns with both permission maps already cleared: the
post-rebuild user and group maps are empty regardless of what the index
held before (the old index is lost, not preserved). -/
theorem C1_rebuild_error_leaves_cleared (extract : Extractor) (upstream : Upstream)
    (pc : PermissionCache) (e : String)
    (h : upstream.listBindings = Except.error e) :
    rebuildPermissionCache extract upstream pc =
      { userPermissions := [], groupPermissions := [] } := by
  unfold rebuildPermissionCache
  rw [h]

/-- Witness for the amended C1 at a concrete failing upstream. -/
theorem C1_witness :
    rebuildPermissionCache extractNone upstreamDown pcAlice =
      { userPermissions := [], groupPermissions := [] } :=
  C1_rebuild_error_leaves_cleared extractNone upstreamDown pcAlice
    "connection refused" rfl

/-- Claim C2 (as stated, refuted): user alice has an index entry before
a rebuild and none after it, yet the fan-out delivers no notification
whose users set contains alice — notifications are built from the
post-rebuild maps only. -/
theorem C2_counterexample :
    "alice" ∈ keysOf pcAlice.userPermissions ∧
    "alice" ∉ keysOf (rebuildPermissionCache extractNone upstreamEmptyOk pcAlice).userPermissions ∧
    ∀ wn ∈ notifyWatchers (rebuildPermissionCache extractNone upstreamEmptyOk pcAlice) [(0 : Nat)],
      "alice" ∉ wn.2.users := by
  decide

/-- Claim C2 (amended): the post-rebuild fan-out delivers to every
registered watcher exactly one notification, built from the current
index alone: its users and groups sets are exactly the current key sets
of the two permission maps, so a subject removed by the rebuild (no
longer a key) appears in no notification. -/
theorem C2_fanout_current_subjects {W : Type} (pc : PermissionCache)
    (watchers : List W) (s : String) :
    (notifyWatchers pc watchers).map Prod.fst = watchers ∧
    ∀ wn ∈ notifyWatchers pc watchers,
      (s ∈ wn.2.users ↔ s ∈ keysOf pc.userPermissions) ∧
      (s ∈ wn.2.groups ↔ s ∈ keysOf pc.groupPermissions) := by
  constructor
  · induction watchers with
    | nil => rfl
    | cons w ws ih => simpa [notifyWatchers] using ih
  · intro wn hwn
    rw [notifyWatchers, List.mem_map] at hwn
    obtain ⟨w, _, rfl⟩ := hwn
    exact ⟨buildNotification_users pc s, buildNotification_groups pc s⟩

/-- Witness for the amended C2 at a concrete index and watcher list. -/
theorem C2_witness :
    ("alice" ∈ (buildNotification pcAlice).users ↔
      "alice" ∈ keysOf pcAlice.userPermissions) ∧
    ("ops" ∈ (buildNotification pcAlice).groups ↔
      "ops" ∈ keysOf pcAlice.groupPermissions) := by
  have h1 := (C2_fanout_current_subjects pcAlice [(0 : Nat)] "alice").2
    ((0 : Nat), buildNotification pcAlice) (by decide)
  have h2 := (C2_fanout_current_subjects pcAlice [(0 : Nat)] "ops").2
    ((0 : Nat), buildNotification pcAlice) (by decide)
  exact ⟨h1.1, h2.2⟩

/-- Claim C4: `List(userInfo, selector)` returns exactly the resources
whose name is accessible to the subject, that exist in the resource
store, and whose labels satisfy the selector; a permitted name absent
from the store is dropped, and nothing outside the permitted name set
appears. -/
theorem C4_list_characterization (pc : PermissionCache) (store : ResourceStore)
    (u : UserInfo) (selector : List (String × String) → Bool) (r : Resource) :
    r ∈ ListSets pc store u selector ↔
      r.name ∈ getAccessibleResourceNames pc u ∧
      store.get r.name = some r ∧ selector r.labels = true := by
  unfold ListSets
  rw [List.mem_filterMap]
  constructor
  · rintro ⟨name, hname, hf⟩
    rcases hs : store.get name with _ | cs <;> rw [hs] at hf <;> dsimp only at hf
    · cases hf
    · by_cases hsel : selector cs.labels = true
      · rw [if_pos hsel] at hf
        injection hf with hcs
        subst hcs
        have hn : cs.name = name := store.get_name name cs hs
        rw [hn]
        exact ⟨hname, hs, hsel⟩
      · rw [if_neg hsel] at hf
        cases hf
  · rintro ⟨hmem, hget, hsel⟩
    refine ⟨r.name, hmem, ?_⟩
    rw [hget]
    dsimp only
    rw [if_pos hsel]

/-- Claim C5: `getAccessibleResourceNames` is the union of the user's
indexed set and each listed group's indexed set, a missing index entry
contributing the empty set; with no user entry and no group entries the
result is the empty set.  (The result is built by `Union` into a fresh
set, so in the Go code it never aliases an index value.) -/
theorem C5_lookupFor_union (pc : PermissionCache) (u : UserInfo) (x : String) :
    (x ∈ getAccessibleResourceNames pc u ↔
        x ∈ (lookupMap pc.userPermissions u.name).getD [] ∨
        ∃ g ∈ u.groups, x ∈ (lookupMap pc.groupPermissions g).getD []) ∧
    (lookupMap pc.userPermissions u.name = none →
      (∀ g ∈ u.groups, lookupMap pc.groupPermissions g = none) →
      getAccessibleResourceNames pc u = []) := by
  refine ⟨mem_getAccessibleResourceNames pc u x, ?_⟩
  intro hu hg
  unfold getAccessibleResourceNames
  simp only [hu]
  exact groupFold_none pc u.groups [] hg

/-- Witness for C5: a subject with no user entry and no group entries
gets the empty set. -/
theorem C5_witness :
    getAccessibleResourceNames pcAlice { name := "bob", groups := ["ops"] } = [] := by
  have h := (C5_lookupFor_union pcAlice { name := "bob", groups := ["ops"] } "dev").2
  exact h (by decide) (by decide)

/-- Claim C6: a watch whose user is not in the notification's users and
none of whose groups are in the notification's groups ignores the
notification: no events, known-resources map untouched. -/
theorem C6_nonparticipant_frame (store : ResourceStore) (u : UserInfo)
    (notification : Notification) (known : KnownMap)
    (h1 : u.name ∉ notification.users)
    (h2 : ∀ g ∈ u.groups, g ∉ notification.groups) :
    GroupMembershipChanged store u notification known = (known, []) := by
  have hacc : ¬ (u.name ∈ notification.users ∨
      ∃ g ∈ u.groups, g ∈ notification.groups) := by
    push_neg
    exact ⟨h1, h2⟩
  simp [GroupMembershipChanged, hacc]

/-- Witness for C6 at a concrete non-participating watch. -/
theorem C6_witness :
    GroupMembershipChanged storeEmpty { name := "bob", groups := ["dev"] }
      { names := ["a"], users := ["alice"], groups := ["ops"] } [("a", "1")] =
      ([("a", "1")], []) :=
  C6_nonparticipant_frame storeEmpty { name := "bob", groups := ["dev"] }
    { names := ["a"], users := ["alice"], groups := ["ops"] } [("a", "1")]
    (by decide) (by decide)

/-- Claim C7: stopping a watch twice is the same as stopping it once —
the second call leaves the state unchanged and emits nothing. -/
theorem C7_stop_idempotent (s : WatcherState) :
    WatcherStop (WatcherStop s).1 = ((WatcherStop s).1, []) := by
  by_cases h : s.started <;> simp [WatcherStop, h]

/-- Claim C8: every DELETED event of the removal pass carries
`ConvertResource(name)` for the dropped name; `ConvertResource` always
returns an object, and for a name absent from the store it is the
placeholder carrying exactly that name. -/
theorem C8_deleted_event_object (store : ResourceStore) (names : SSet)
    (known : KnownMap) (e : Event)
    (he : e ∈ (handleResourceDeletions store names known).2) :
    e.type = EventType.deleted ∧
    e.object = convertResource store e.object.name ∧
    (store.get e.object.name = none →
      e.object = { name := e.object.name, labels := [], resourceVersion := "" }) ∧
    e.object.name ∈ keysOf known ∧ e.object.name ∉ names := by
  unfold handleResourceDeletions at he
  rw [List.mem_map] at he
  obtain ⟨p, hp, rfl⟩ := he
  rw [List.mem_filter] at hp
  obtain ⟨hpk, hpn⟩ := hp
  have hname : (convertResource store p.1).name = p.1 := convertResource_name store p.1
  have hpn' : p.1 ∉ names := by simpa using hpn
  have hkeys : p.1 ∈ keysOf known := List.mem_map_of_mem Prod.fst hpk
  refine ⟨rfl, ?_, ?_, ?_, ?_⟩
  · show convertResource store p.1 = convertResource store (convertResource store p.1).name
    rw [hname]
  · intro hget
    rw [hname] at hget
    show convertResource store p.1 =
      { name := (convertResource store p.1).name, labels := [], resourceVersion := "" }
    rw [hname]
    unfold convertResource
    rw [hget]
  · show (convertResource store p.1).name ∈ keysOf known
    rw [hname]
    exact hkeys
  · show (convertResource store p.1).name ∉ names
    rw [hname]
    exact hpn'

/-! ### Cluster-set mapper lemmas and claim C9 -/

theorem not_mem_filter_ne (l : List String) (r : String) :
    r ∉ l.filter (fun x => x ≠ r) := by
  intro h
  rw [List.mem_filter] at h
  simpa using h.2

theorem lookupMap_mem {α : Type} (m : List (String × α)) (k : String) (v : α)
    (h : lookupMap m k = some v) : (k, v) ∈ m := by
  induction m with
  | nil => cases h
  | cons p rest ih =>
    unfold lookupMap at h
    by_cases hp : p.1 = k
    · rw [if_pos hp] at h
      injection h with hv
      obtain ⟨a, b⟩ := p
      dsimp only at hp hv
      rw [← hp, ← hv]
      exact List.mem_cons_self (a, b) rest
    · rw [if_neg hp] at h
      exact List.mem_cons_of_mem p (ih h)

theorem lookupMap_insert_self (m : List (String × SSet)) (k r : String) (v : SSet)
    (h : lookupMap m k = some v) :
    lookupMap (m.map (fun p => if p.1 = k then (p.1, p.2.insert r) else p)) k =
      some (v.insert r) := by
  induction m with
  | nil => cases h
  | cons p rest ih =>
    unfold lookupMap at h
    by_cases hp : p.1 = k
    · rw [if_pos hp] at h
      injection h with hv
      simp [lookupMap, hp, hv]
    · rw [if_neg hp] at h
      simp [lookupMap, hp, ih h]

theorem lookupMap_insert_other (m : List (String × SSet)) (k k' r : String)
    (h : k' ≠ k) :
    lookupMap (m.map (fun p => if p.1 = k then (p.1, p.2.insert r) else p)) k' =
      lookupMap m k' := by
  induction m with
  | nil => rfl
  | cons p rest ih =>
    by_cases hp : p.1 = k
    · have hk' : ¬ k = k' := fun he => h he.symm
      simp [lookupMap, hp, hk', ih]
    · by_cases hp' : p.1 = k' <;> simp [lookupMap, hp, hp', ih, h]

theorem lookupMap_cons {α : Type} (p : String × α) (rest : List (String × α))
    (k : String) :
    lookupMap (p :: rest) k = if p.1 = k then some p.2 else lookupMap rest k := rfl

theorem lookupMap_removeFromOtherSets_target (m : List (String × SSet)) (r S : String) :
    lookupMap (removeFromOtherSets m r S) S = lookupMap m S := by
  induction m with
  | nil => rfl
  | cons p rest ih =>
    unfold removeFromOtherSets
    rw [List.filterMap_cons]
    by_cases hp : p.1 = S
    · rw [if_pos hp]
      dsimp only
      rw [lookupMap_cons, lookupMap_cons, if_pos hp, if_pos hp]
    · rw [if_neg hp]
      by_cases hr : r ∈ p.2
      · rw [if_pos hr]
        by_cases he : (p.2.filter (fun x => x ≠ r)).isEmpty
        · rw [if_pos he]
          dsimp only
          rw [lookupMap_cons, if_neg hp]
          exact ih
        · rw [if_neg he]
          dsimp only
          rw [lookupMap_cons, lookupMap_cons, if_neg hp, if_neg hp]
          exact ih
      · rw [if_neg hr]
        dsimp only
        rw [lookupMap_cons, lookupMap_cons, if_neg hp, if_neg hp]
        exact ih

theorem removeFromOtherSets_no_member (m : List (String × SSet)) (r S T : String)
    (v : SSet) (hT : T ≠ S)
    (hv : lookupMap (removeFromOtherSets m r S) T = some v) : r ∉ v := by
  have hmem : (T, v) ∈ removeFromOtherSets m r S := lookupMap_mem _ T v hv
  unfold removeFromOtherSets at hmem
  rw [List.mem_filterMap] at hmem
  obtain ⟨p, _, hf⟩ := hmem
  by_cases hpS : p.1 = S
  · rw [if_pos hpS] at hf
    have h1 : p.1 = T := congrArg Prod.fst (Option.some.inj hf)
    exact absurd (h1.symm.trans hpS) hT
  · rw [if_neg hpS] at hf
    by_cases hr : r ∈ p.2
    · rw [if_pos hr] at hf
      by_cases he : (p.2.filter (fun x => x ≠ r)).isEmpty
      · rw [if_pos he] at hf
        cases hf
      · rw [if_neg he] at hf
        have h2 : p.2.filter (fun x => x ≠ r) = v :=
          congrArg Prod.snd (Option.some.inj hf)
        rw [← h2]
        exact not_mem_filter_ne p.2 r
    · rw [if_neg hr] at hf
      have h2 : p.2 = v := congrArg Prod.snd (Option.some.inj hf)
      rw [← h2]
      exact hr

/-- Claim C9: for non-empty names, after `MoveResourceToClusterSet(r, S)`
the resource is a member of `S` and of no other cluster set; the
removal from every other set and the addition happen inside the one
method (one critical section in the Go code). -/
theorem C9_moveMember (m : ClusterSetResourceMapper) (r S : String)
    (hr : r ≠ "") (hS : S ≠ "") :
    r ∈ (m.MoveResourceToClusterSet r S).GetResourcesInClusterSet S ∧
    ∀ T, T ≠ S → r ∉ (m.MoveResourceToClusterSet r S).GetResourcesInClusterSet T := by
  have hguard : ¬ (r = "" ∨ S = "") := by
    rintro (h | h)
    exacts [hr h, hS h]
  unfold ClusterSetResourceMapper.MoveResourceToClusterSet
  rw [if_neg hguard]
  by_cases hex : (lookupMap (removeFromOtherSets m.setToResources r S) S).isSome
  · rw [if_pos hex]
    constructor
    · unfold ClusterSetResourceMapper.GetResourcesInClusterSet
      dsimp only
      obtain ⟨v, hv⟩ := Option.isSome_iff_exists.mp hex
      rw [lookupMap_insert_self _ S r v hv]
      exact (SSet.mem_insert v r r).mpr (Or.inr rfl)
    · intro T hT
      unfold ClusterSetResourceMapper.GetResourcesInClusterSet
      dsimp only
      rw [lookupMap_insert_other _ S T r hT]
      rcases hvt : lookupMap (removeFromOtherSets m.setToResources r S) T with _ | v
      · exact List.not_mem_nil r
      · exact removeFromOtherSets_no_member m.setToResources r S T v hT hvt
  · rw [if_neg hex]
    have hnone : lookupMap (removeFromOtherSets m.setToResources r S) S = none := by
      rcases hl : lookupMap (removeFromOtherSets m.setToResources r S) S with _ | v
      · rfl
      · exact absurd (by rw [hl]; rfl) hex
    constructor
    · unfold ClusterSetResourceMapper.GetResourcesInClusterSet
      dsimp only
      rw [lookupMap_append, hnone]
      simp [lookupMap, SSet.insert]
    · intro T hT
      unfold ClusterSetResourceMapper.GetResourcesInClusterSet
      dsimp only
      rw [lookupMap_append]
      rcases hvt : lookupMap (removeFromOtherSets m.setToResources r S) T with _ | v
      · have hST : ¬ S = T := fun he => hT he.symm
        simp [lookupMap, hST]
      · exact removeFromOtherSets_no_member m.setToResources r S T v hT hvt

/-- A concrete mapper state for the C9 witness. -/
def mapperW : ClusterSetResourceMapper :=
  { resourceType := "cluster",
    setToResources := [("setA", ["c1", "c2"]), ("setB", ["c3"])] }

/-- Witness for C9 at a concrete move. -/
theorem C9_witness :
    "c1" ∈ (mapperW.MoveResourceToClusterSet "c1" "setB").GetResourcesInClusterSet "setB" ∧
    "c1" ∉ (mapperW.MoveResourceToClusterSet "c1" "setB").GetResourcesInClusterSet "setA" := by
  have h := C9_moveMember mapperW "c1" "setB" (by decide) (by decide)
  exact ⟨h.1, h.2 "setA" (by decide)⟩

/-! ### Equation lemmas for the updates pass -/

theorem HRU_nil (store : ResourceStore) (known : KnownMap) :
    handleResourceUpdates store [] known = (known, []) := rfl

theorem HRU_cons_none (store : ResourceStore) (name : String) (rest : List String)
    (known : KnownMap) (h : store.get name = none) :
    handleResourceUpdates store (name :: rest) known =
      handleResourceUpdates store rest known := by
  conv_lhs => unfold handleResourceUpdates
  rw [h]

theorem HRU_cons_skip (store : ResourceStore) (name : String) (rest : List String)
    (known : KnownMap) (object : Resource) (last : String)
    (hg : store.get name = some object) (hl : lookupMap known name = some last)
    (he : last = object.resourceVersion) :
    handleResourceUpdates store (name :: rest) known =
      handleResourceUpdates store rest known := by
  conv_lhs => unfold handleResourceUpdates
  rw [hg]
  dsimp only
  rw [hl]
  dsimp only
  rw [if_pos he]

theorem HRU_cons_modified (store : ResourceStore) (name : String) (rest : List String)
    (known : KnownMap) (object : Resource) (last : String)
    (hg : store.get name = some object) (hl : lookupMap known name = some last)
    (he : last ≠ object.resourceVersion) :
    handleResourceUpdates store (name :: rest) known =
      ((handleResourceUpdates store rest (setKnown known name object.resourceVersion)).1,
       { type := EventType.modified, object := object } ::
         (handleResourceUpdates store rest (setKnown known name object.resourceVersion)).2) := by
  conv_lhs => unfold handleResourceUpdates
  rw [hg]
  dsimp only
  rw [hl]
  dsimp only
  rw [if_neg he]

theorem HRU_cons_added (store : ResourceStore) (name : String) (rest : List String)
    (known : KnownMap) (object : Resource)
    (hg : store.get name = some object) (hl : lookupMap known name = none) :
    handleResourceUpdates store (name :: rest) known =
      ((handleResourceUpdates store rest (setKnown known name object.resourceVersion)).1,
       { type := EventType.added, object := object } ::
         (handleResourceUpdates store rest (setKnown known name object.resourceVersion)).2) := by
  conv_lhs => unfold handleResourceUpdates
  rw [hg]
  dsimp only
  rw [hl]

/-! ### The updates pass: frame and per-name event counting -/

theorem updates_frame (store : ResourceStore) (names : List String) (known : KnownMap)
    (n : String) (hn : n ∉ names) :
    lookupMap (handleResourceUpdates store names known).1 n = lookupMap known n ∧
    ∀ t, countEvents (handleResourceUpdates store names known).2 t n = 0 := by
  induction names generalizing known with
  | nil =>
    exact ⟨rfl, fun t => rfl⟩
  | cons name rest ih =>
    have hne : n ≠ name := fun h => hn (h ▸ List.mem_cons_self name rest)
    have hnr : n ∉ rest := fun h => hn (List.mem_cons_of_mem name h)
    rcases hg : store.get name with _ | object
    · rw [HRU_cons_none store name rest known hg]
      exact ih known hnr
    · have hobj : object.name = name := store.get_name name object hg
      rcases hl : lookupMap known name with _ | last
      · rw [HRU_cons_added store name rest known object hg hl]
        obtain ⟨ih1, ih2⟩ := ih (setKnown known name object.resourceVersion) hnr
        refine ⟨?_, ?_⟩
        · rw [ih1, lookupMap_setKnown_other known name _ n hne]
        · intro t
          have h2 := ih2 t
          unfold countEvents at h2 ⊢
          rw [List.countP_cons, h2]
          simp [hobj, Ne.symm hne]
      · by_cases heq : last = object.resourceVersion
        · rw [HRU_cons_skip store name rest known object last hg hl heq]
          exact ih known hnr
        · rw [HRU_cons_modified store name rest known object last hg hl heq]
          obtain ⟨ih1, ih2⟩ := ih (setKnown known name object.resourceVersion) hnr
          refine ⟨?_, ?_⟩
          · rw [ih1, lookupMap_setKnown_other known name _ n hne]
          · intro t
            have h2 := ih2 t
            unfold countEvents at h2 ⊢
            rw [List.countP_cons, h2]
            simp [hobj, Ne.symm hne]

theorem updates_hit_new (store : ResourceStore) (names : List String) (known : KnownMap)
    (n : String) (obj : Resource) (hnodup : names.Nodup) (hn : n ∈ names)
    (hg : store.get n = some obj) (hl : lookupMap known n = none) :
    countEvents (handleResourceUpdates store names known).2 EventType.added n = 1 ∧
    countEvents (handleResourceUpdates store names known).2 EventType.modified n = 0 ∧
    lookupMap (handleResourceUpdates store names known).1 n = some obj.resourceVersion := by
  induction names generalizing known with
  | nil => cases hn
  | cons name rest ih =>
    rw [List.nodup_cons] at hnodup
    obtain ⟨hname_rest, hrest⟩ := hnodup
    rcases List.mem_cons.mp hn with rfl | hnr
    · have hobj : obj.name = n := store.get_name n obj hg
      rw [HRU_cons_added store n rest known obj hg hl]
      obtain ⟨hf1, hf2⟩ :=
        updates_frame store rest (setKnown known n obj.resourceVersion) n hname_rest
      refine ⟨?_, ?_, ?_⟩
      · have h2 := hf2 EventType.added
        unfold countEvents at h2 ⊢
        rw [List.countP_cons, h2]
        simp [hobj]
      · have h2 := hf2 EventType.modified
        unfold countEvents at h2 ⊢
        rw [List.countP_cons, h2]
        simp
      · rw [hf1, lookupMap_setKnown_self]
    · have hne : n ≠ name := fun h => hname_rest (h ▸ hnr)
      rcases hgname : store.get name with _ | object
      · rw [HRU_cons_none store name rest known hgname]
        exact ih known hrest hnr hl
      · have hobjn : object.name = name := store.get_name name object hgname
        rcases hlname : lookupMap known name with _ | last
        · rw [HRU_cons_added store name rest known object hgname hlname]
          have hl' : lookupMap (setKnown known name object.resourceVersion) n = none := by
            rw [lookupMap_setKnown_other known name _ n hne]
            exact hl
          obtain ⟨ih1, ih2, ih3⟩ := ih (setKnown known name object.resourceVersion) hrest hnr hl'
          refine ⟨?_, ?_, ih3⟩
          · unfold countEvents at ih1 ⊢
            rw [List.countP_cons, ih1]
            simp [hobjn, Ne.symm hne]
          · unfold countEvents at ih2 ⊢
            rw [List.countP_cons, ih2]
            simp [hobjn, Ne.symm hne]
        · by_cases heq : last = object.resourceVersion
          · rw [HRU_cons_skip store name rest known object last hgname hlname heq]
            exact ih known hrest hnr hl
          · rw [HRU_cons_modified store name rest known object last hgname hlname heq]
            have hl' : lookupMap (setKnown known name object.resourceVersion) n = none := by
              rw [lookupMap_setKnown_other known name _ n hne]
              exact hl
            obtain ⟨ih1, ih2, ih3⟩ :=
              ih (setKnown known name object.resourceVersion) hrest hnr hl'
            refine ⟨?_, ?_, ih3⟩
            · unfold countEvents at ih1 ⊢
              rw [List.countP_cons, ih1]
              simp [hobjn, Ne.symm hne]
            · unfold countEvents at ih2 ⊢
              rw [List.countP_cons, ih2]
              simp [hobjn, Ne.symm hne]

/-- Witness for C8 at a concrete removal. -/
theorem C8_witness :
    (Event.mk EventType.deleted { name := "a", labels := [], resourceVersion := "" }).object.name
        ∈ keysOf [("a", "1")] ∧
    (Event.mk EventType.deleted { name := "a", labels := [], resourceVersion := "" }).object =
      convertResource storeEmpty "a" := by
  have h := C8_deleted_event_object storeEmpty [] [("a", "1")]
    (Event.mk EventType.deleted { name := "a", labels := [], resourceVersion := "" })
    (by decide)
  exact ⟨h.2.2.2.1, h.2.1⟩

theorem updates_hit_changed (store : ResourceStore) (names : List String)
    (known : KnownMap) (n : String) (obj : Resource) (last : String)
    (hnodup : names.Nodup) (hn : n ∈ names) (hg : store.get n = some obj)
    (hl : lookupMap known n = some last) (hlne : last ≠ obj.resourceVersion) :
    countEvents (handleResourceUpdates store names known).2 EventType.added n = 0 ∧
    countEvents (handleResourceUpdates store names known).2 EventType.modified n = 1 ∧
    lookupMap (handleResourceUpdates store names known).1 n = some obj.resourceVersion := by
  induction names generalizing known with
  | nil => cases hn
  | cons name rest ih =>
    rw [List.nodup_cons] at hnodup
    obtain ⟨hname_rest, hrest⟩ := hnodup
    rcases List.mem_cons.mp hn with rfl | hnr
    · have hobj : obj.name = n := store.get_name n obj hg
      rw [HRU_cons_modified store n rest known obj last hg hl hlne]
      obtain ⟨hf1, hf2⟩ :=
        updates_frame store rest (setKnown known n obj.resourceVersion) n hname_rest
      refine ⟨?_, ?_, ?_⟩
      · have h2 := hf2 EventType.added
        unfold countEvents at h2 ⊢
        rw [List.countP_cons, h2]
        simp
      · have h2 := hf2 EventType.modified
        unfold countEvents at h2 ⊢
        rw [List.countP_cons, h2]
        simp [hobj]
      · rw [hf1, lookupMap_setKnown_self]
    · have hne : n ≠ name := fun h => hname_rest (h ▸ hnr)
      rcases hgname : store.get name with _ | object
      · rw [HRU_cons_none store name rest known hgname]
        exact ih known hrest hnr hl
      · have hobjn : object.name = name := store.get_name name object hgname
        rcases hlname : lookupMap known name with _ | lastn
        · rw [HRU_cons_added store name rest known object hgname hlname]
          have hl' : lookupMap (setKnown known name object.resourceVersion) n = some last := by
            rw [lookupMap_setKnown_other known name _ n hne]
            exact hl
          obtain ⟨ih1, ih2, ih3⟩ :=
            ih (setKnown known name object.resourceVersion) hrest hnr hl'
          refine ⟨?_, ?_, ih3⟩
          · unfold countEvents at ih1 ⊢
            rw [List.countP_cons, ih1]
            simp [hobjn, Ne.symm hne]
          · unfold countEvents at ih2 ⊢
            rw [List.countP_cons, ih2]
            simp [hobjn, Ne.symm hne]
        · by_cases heq : lastn = object.resourceVersion
          · rw [HRU_cons_skip store name rest known object lastn hgname hlname heq]
            exact ih known hrest hnr hl
          · rw [HRU_cons_modified store name rest known object lastn hgname hlname heq]
            have hl' : lookupMap (setKnown known name object.resourceVersion) n = some last := by
              rw [lookupMap_setKnown_other known name _ n hne]
              exact hl
            obtain ⟨ih1, ih2, ih3⟩ :=
              ih (setKnown known name object.resourceVersion) hrest hnr hl'
            refine ⟨?_, ?_, ih3⟩
            · unfold countEvents at ih1 ⊢
              rw [List.countP_cons, ih1]
              simp [hobjn, Ne.symm hne]
            · unfold countEvents at ih2 ⊢
              rw [List.countP_cons, ih2]
              simp [hobjn, Ne.symm hne]

theorem updates_hit_same (store : ResourceStore) (names : List String)
    (known : KnownMap) (n : String) (obj : Resource) (last : String)
    (hnodup : names.Nodup) (hn : n ∈ names) (hg : store.get n = some obj)
    (hl : lookupMap known n = some last) (hleq : last = obj.resourceVersion) :
    countEvents (handleResourceUpdates store names known).2 EventType.added n = 0 ∧
    countEvents (handleResourceUpdates store names known).2 EventType.modified n = 0 ∧
    lookupMap (handleResourceUpdates store names known).1 n = some last := by
  induction names generalizing known with
  | nil => cases hn
  | cons name rest ih =>
    rw [List.nodup_cons] at hnodup
    obtain ⟨hname_rest, hrest⟩ := hnodup
    rcases List.mem_cons.mp hn with rfl | hnr
    · rw [HRU_cons_skip store n rest known obj last hg hl hleq]
      obtain ⟨hf1, hf2⟩ := updates_frame store rest known n hname_rest
      exact ⟨hf2 EventType.added, hf2 EventType.modified, by rw [hf1, hl]⟩
    · have hne : n ≠ name := fun h => hname_rest (h ▸ hnr)
      rcases hgname : store.get name with _ | object
      · rw [HRU_cons_none store name rest known hgname]
        exact ih known hrest hnr hl
      · have hobjn : object.name = name := store.get_name name object hgname
        rcases hlname : lookupMap known name with _ | lastn
        · rw [HRU_cons_added store name rest known object hgname hlname]
          have hl' : lookupMap (setKnown known name object.resourceVersion) n = some last := by
            rw [lookupMap_setKnown_other known name _ n hne]
            exact hl
          obtain ⟨ih1, ih2, ih3⟩ :=
            ih (setKnown known name object.resourceVersion) hrest hnr hl'
          refine ⟨?_, ?_, ih3⟩
          · unfold countEvents at ih1 ⊢
            rw [List.countP_cons, ih1]
            simp [hobjn, Ne.symm hne]
          · unfold countEvents at ih2 ⊢
            rw [List.countP_cons, ih2]
            simp [hobjn, Ne.symm hne]
        · by_cases heq : lastn = object.resourceVersion
          · rw [HRU_cons_skip store name rest known object lastn hgname hlname heq]
            exact ih known hrest hnr hl
          · rw [HRU_cons_modified store name rest known object lastn hgname hlname heq]
            have hl' : lookupMap (setKnown known name object.resourceVersion) n = some last := by
              rw [lookupMap_setKnown_other known name _ n hne]
              exact hl
            obtain ⟨ih1, ih2, ih3⟩ :=
              ih (setKnown known name object.resourceVersion) hrest hnr hl'
            refine ⟨?_, ?_, ih3⟩
            · unfold countEvents at ih1 ⊢
              rw [List.countP_cons, ih1]
              simp [hobjn, Ne.symm hne]
            · unfold countEvents at ih2 ⊢
              rw [List.countP_cons, ih2]
              simp [hobjn, Ne.symm hne]

theorem updates_event_types (store : ResourceStore) (names : List String)
    (known : KnownMap) :
    ∀ e ∈ (handleResourceUpdates store names known).2,
      e.type = EventType.added ∨ e.type = EventType.modified := by
  induction names generalizing known with
  | nil =>
    intro e he
    cases he
  | cons name rest ih =>
    intro e he
    rcases hg : store.get name with _ | object
    · rw [HRU_cons_none store name rest known hg] at he
      exact ih known e he
    · rcases hl : lookupMap known name with _ | last
      · rw [HRU_cons_added store name rest known object hg hl] at he
        rcases List.mem_cons.mp he with rfl | he'
        · exact Or.inl rfl
        · exact ih (setKnown known name object.resourceVersion) e he'
      · by_cases heq : last = object.resourceVersion
        · rw [HRU_cons_skip store name rest known object last hg hl heq] at he
          exact ih known e he
        · rw [HRU_cons_modified store name rest known object last hg hl heq] at he
          rcases List.mem_cons.mp he with rfl | he'
          · exact Or.inr rfl
          · exact ih (setKnown known name object.resourceVersion) e he'

theorem updates_count_deleted_error (store : ResourceStore) (names : List String)
    (known : KnownMap) (n : String) (t : EventType)
    (ht : t = EventType.deleted ∨ t = EventType.error) :
    countEvents (handleResourceUpdates store names known).2 t n = 0 := by
  unfold countEvents
  rw [List.countP_eq_zero]
  intro e he
  rcases updates_event_types store names known e he with h | h <;>
    rcases ht with rfl | rfl <;> simp [h]

/-! ### The removal pass: per-name event counting -/

theorem countEvents_append (a b : List Event) (t : EventType) (n : String) :
    countEvents (a ++ b) t n = countEvents a t n + countEvents b t n := by
  unfold countEvents
  exact List.countP_append _ _ _

theorem deletions_count_eq (store : ResourceStore) (names : SSet) (known : KnownMap)
    (n : String) :
    countEvents (handleResourceDeletions store names known).2 EventType.deleted n =
      (known.filter (fun p => p.1 ∉ names)).countP (fun p => p.1 = n) := by
  unfold handleResourceDeletions countEvents
  rw [List.countP_map]
  apply List.countP_congr
  intro p _
  simp [Function.comp, convertResource_name store p.1]

theorem countP_key_eq_of_nodup (m : KnownMap) (n : String)
    (hnodup : (keysOf m).Nodup) :
    m.countP (fun p => p.1 = n) = if n ∈ keysOf m then 1 else 0 := by
  induction m with
  | nil => simp [keysOf]
  | cons p rest ih =>
    rw [keysOf_cons, List.nodup_cons] at hnodup
    obtain ⟨hp, hrest⟩ := hnodup
    rw [List.countP_cons, ih hrest, keysOf_cons]
    by_cases hn : p.1 = n
    · subst hn
      simp [hp]
    · have hn' : ¬ n = p.1 := fun he => hn he.symm
      simp [hn, hn', List.mem_cons]

theorem countP_key_filter (known : KnownMap) (names : SSet) (n : String)
    (hn : n ∉ names) :
    (known.filter (fun p => p.1 ∉ names)).countP (fun p => p.1 = n) =
      known.countP (fun p => p.1 = n) := by
  induction known with
  | nil => rfl
  | cons p rest ih =>
    rw [List.filter_cons]
    by_cases hp : p.1 ∉ names
    · rw [if_pos (by simpa using hp), List.countP_cons, List.countP_cons, ih]
    · rw [if_neg (by simpa using hp), List.countP_cons, ih]
      have hpn : ¬ (p.1 = n) := by
        intro he
        exact hp (fun hmem => hn (he ▸ hmem))
      simp [hpn]

theorem countP_key_filter_mem (known : KnownMap) (names : SSet) (n : String)
    (hn : n ∈ names) :
    (known.filter (fun p => p.1 ∉ names)).countP (fun p => p.1 = n) = 0 := by
  rw [List.countP_eq_zero]
  intro p hp
  rw [List.mem_filter] at hp
  have h2 : p.1 ∉ names := by simpa using hp.2
  intro hpn
  have : p.1 = n := by simpa using hpn
  exact h2 (this ▸ hn)

theorem deletions_count_nondeleted (store : ResourceStore) (names : SSet)
    (known : KnownMap) (n : String) (t : EventType) (ht : t ≠ EventType.deleted) :
    countEvents (handleResourceDeletions store names known).2 t n = 0 := by
  unfold countEvents handleResourceDeletions
  rw [List.countP_eq_zero]
  intro e he
  rw [List.mem_map] at he
  obtain ⟨p, _, rfl⟩ := he
  simp [Ne.symm ht]

theorem lookupMap_filter_mem (known : KnownMap) (names : SSet) (n : String) :
    lookupMap (known.filter (fun p => p.1 ∈ names)) n =
      if n ∈ names then lookupMap known n else none := by
  induction known with
  | nil => simp [lookupMap]
  | cons p rest ih =>
    rw [List.filter_cons]
    by_cases hp : p.1 ∈ names
    · rw [if_pos (by simpa using hp)]
      by_cases hpn : p.1 = n
      · subst hpn
        simp [lookupMap, hp]
      · unfold lookupMap
        rw [if_neg hpn, ih]
        by_cases hn : n ∈ names <;> simp [lookupMap, hpn, hn]
    · rw [if_neg (by simpa using hp)]
      rw [ih]
      by_cases hpn : p.1 = n
      · subst hpn
        simp [lookupMap, hp]
      · by_cases hn : n ∈ names <;> simp [lookupMap, hpn, hn]

/-- Claim C3: for a participating watch processing a notification with
visible set `names`, at each resource name: known-but-no-longer-visible
yields exactly one DELETED and leaves the map without the name; visible
and unknown (with the resource present in the store) yields exactly one
ADDED and records the current resource version; visible and known with
a changed resource version yields exactly one MODIFIED and re-records;
visible and known with an unchanged resource version yields no event
and keeps the stored version. -/
theorem C3_notification_event_diff (store : ResourceStore) (names : SSet)
    (known : KnownMap) (n : String) (obj : Resource)
    (hkeys : (keysOf known).Nodup) (hnames : names.Nodup) :
    (n ∈ keysOf known → n ∉ names →
      countEvents (processNotification store names known).2 EventType.deleted n = 1 ∧
      countEvents (processNotification store names known).2 EventType.added n = 0 ∧
      countEvents (processNotification store names known).2 EventType.modified n = 0 ∧
      lookupMap (processNotification store names known).1 n = none) ∧
    (n ∉ keysOf known → n ∈ names → store.get n = some obj →
      countEvents (processNotification store names known).2 EventType.added n = 1 ∧
      countEvents (processNotification store names known).2 EventType.modified n = 0 ∧
      countEvents (processNotification store names known).2 EventType.deleted n = 0 ∧
      lookupMap (processNotification store names known).1 n = some obj.resourceVersion) ∧
    (∀ last, lookupMap known n = some last → n ∈ names → store.get n = some obj →
      last ≠ obj.resourceVersion →
      countEvents (processNotification store names known).2 EventType.modified n = 1 ∧
      countEvents (processNotification store names known).2 EventType.added n = 0 ∧
      countEvents (processNotification store names known).2 EventType.deleted n = 0 ∧
      lookupMap (processNotification store names known).1 n = some obj.resourceVersion) ∧
    (∀ last, lookupMap known n = some last → n ∈ names → store.get n = some obj →
      last = obj.resourceVersion →
      countEvents (processNotification store names known).2 EventType.added n = 0 ∧
      countEvents (processNotification store names known).2 EventType.modified n = 0 ∧
      countEvents (processNotification store names known).2 EventType.deleted n = 0 ∧
      lookupMap (processNotification store names known).1 n = some last) := by
  have hk1 : (processNotification store names known).1 =
      (handleResourceUpdates store names (known.filter (fun p => p.1 ∈ names))).1 := rfl
  have hev : (processNotification store names known).2 =
      (handleResourceDeletions store names known).2 ++
        (handleResourceUpdates store names (known.filter (fun p => p.1 ∈ names))).2 := rfl
  refine ⟨?_, ?_, ?_, ?_⟩
  · intro hmem hnot
    obtain ⟨hf1, hf2⟩ :=
      updates_frame store names (known.filter (fun p => p.1 ∈ names)) n hnot
    refine ⟨?_, ?_, ?_, ?_⟩
    · rw [hev, countEvents_append, hf2 EventType.deleted, deletions_count_eq,
        countP_key_filter known names n hnot, countP_key_eq_of_nodup known n hkeys,
        if_pos hmem]
    · rw [hev, countEvents_append, hf2 EventType.added,
        deletions_count_nondeleted store names known n EventType.added (by simp)]
    · rw [hev, countEvents_append, hf2 EventType.modified,
        deletions_count_nondeleted store names known n EventType.modified (by simp)]
    · rw [hk1, hf1, lookupMap_filter_mem, if_neg hnot]
  · intro hnk hmem hg
    have hl1 : lookupMap (known.filter (fun p => p.1 ∈ names)) n = none := by
      rw [lookupMap_filter_mem, if_pos hmem]
      exact (lookupMap_eq_none known n).mpr hnk
    obtain ⟨hu1, hu2, hu3⟩ :=
      updates_hit_new store names (known.filter (fun p => p.1 ∈ names)) n obj
        hnames hmem hg hl1
    refine ⟨?_, ?_, ?_, ?_⟩
    · rw [hev, countEvents_append, hu1,
        deletions_count_nondeleted store names known n EventType.added (by simp)]
    · rw [hev, countEvents_append, hu2,
        deletions_count_nondeleted store names known n EventType.modified (by simp)]
    · rw [hev, countEvents_append, deletions_count_eq, countP_key_filter_mem known names n hmem,
        updates_count_deleted_error store names (known.filter (fun p => p.1 ∈ names)) n
          EventType.deleted (Or.inl rfl)]
    · rw [hk1, hu3]
  · intro last hlast hmem hg hlne
    have hl1 : lookupMap (known.filter (fun p => p.1 ∈ names)) n = some last := by
      rw [lookupMap_filter_mem, if_pos hmem]
      exact hlast
    obtain ⟨hu1, hu2, hu3⟩ :=
      updates_hit_changed store names (known.filter (fun p => p.1 ∈ names)) n obj last
        hnames hmem hg hl1 hlne
    refine ⟨?_, ?_, ?_, ?_⟩
    · rw [hev, countEvents_append, hu2,
        deletions_count_nondeleted store names known n EventType.modified (by simp)]
    · rw [hev, countEvents_append, hu1,
        deletions_count_nondeleted store names known n EventType.added (by simp)]
    · rw [hev, countEvents_append, deletions_count_eq, countP_key_filter_mem known names n hmem,
        updates_count_deleted_error store names (known.filter (fun p => p.1 ∈ names)) n
          EventType.deleted (Or.inl rfl)]
    · rw [hk1, hu3]
  · intro last hlast hmem hg hleq
    have hl1 : lookupMap (known.filter (fun p => p.1 ∈ names)) n = some last := by
      rw [lookupMap_filter_mem, if_pos hmem]
      exact hlast
    obtain ⟨hu1, hu2, hu3⟩ :=
      updates_hit_same store names (known.filter (fun p => p.1 ∈ names)) n obj last
        hnames hmem hg hl1 hleq
    refine ⟨?_, ?_, ?_, ?_⟩
    · rw [hev, countEvents_append, hu1,
        deletions_count_nondeleted store names known n EventType.added (by simp)]
    · rw [hev, countEvents_append, hu2,
        deletions_count_nondeleted store names known n EventType.modified (by simp)]
    · rw [hev, countEvents_append, deletions_count_eq, countP_key_filter_mem known names n hmem,
        updates_count_deleted_error store names (known.filter (fun p => p.1 ∈ names)) n
          EventType.deleted (Or.inl rfl)]
    · rw [hk1, hu3]

/-- A concrete store for the C3 witness: b unchanged at version 2,
c moved to version 3, d newly visible at version 1, a gone. -/
def storeC3 : ResourceStore :=
  { items := [ { name := "b", labels := [], resourceVersion := "2" },
               { name := "c", labels := [], resourceVersion := "3" },
               { name := "d", labels := [], resourceVersion := "1" } ] }

/-- The C3 witness's prior known-resources map. -/
def knownC3 : KnownMap := [("a", "1"), ("b", "2"), ("c", "2")]

/-- The C3 witness's new visible-name set. -/
def namesC3 : SSet := ["b", "c", "d"]

/-- Witness for C3: one run of the notification hits all four cases —
a deleted, d added, c modified, b deduplicated. -/
theorem C3_witness :
    countEvents (processNotification storeC3 namesC3 knownC3).2 EventType.deleted "a" = 1 ∧
    countEvents (processNotification storeC3 namesC3 knownC3).2 EventType.added "d" = 1 ∧
    countEvents (processNotification storeC3 namesC3 knownC3).2 EventType.modified "c" = 1 ∧
    countEvents (processNotification storeC3 namesC3 knownC3).2 EventType.added "b" = 0 ∧
    countEvents (processNotification storeC3 namesC3 knownC3).2 EventType.modified "b" = 0 := by
  have ha := C3_notification_event_diff storeC3 namesC3 knownC3 "a"
    { name := "a", labels := [], resourceVersion := "" } (by decide) (by decide)
  have hd := C3_notification_event_diff storeC3 namesC3 knownC3 "d"
    { name := "d", labels := [], resourceVersion := "1" } (by decide) (by decide)
  have hc := C3_notification_event_diff storeC3 namesC3 knownC3 "c"
    { name := "c", labels := [], resourceVersion := "3" } (by decide) (by decide)
  have hb := C3_notification_event_diff storeC3 namesC3 knownC3 "b"
    { name := "b", labels := [], resourceVersion := "2" } (by decide) (by decide)
  refine ⟨(ha.1 (by decide) (by decide)).1,
    (hd.2.1 (by decide) (by decide) (by decide)).1,
    (hc.2.2.1 "2" (by decide) (by decide) (by decide) (by decide)).1,
    (hb.2.2.2 "2" (by decide) (by decide) (by decide) (by decide)).1,
    (hb.2.2.2 "2" (by decide) (by decide) (by decide) (by decide)).2.1⟩

end Foundation
